import Mathlib

/-!
Shallow embedding of `src/scripts/sonic.js` (Sonic staking bot):
the retry-with-backoff executor `withRetry`, the cycle scheduler of `main`,
the random samplers `getRandomDelay` / `getRandomAmount`, the balance guards
of `supplyWS`, and the termination paths of `main` and the SIGINT handler.

JavaScript asynchronous operations are modelled as pure functions:
an operation that may differ between invocations becomes a function from the
1-indexed invocation number to `Except`; `Math.random()` (a float in `[0,1)`)
becomes a rational parameter `r` with `0 ≤ r < 1`; awaited delays are recorded
in an explicit trace instead of actually sleeping.
-/

namespace Sonic

/-- Constant `MAX_RETRIES = 3` from the configuration section of sonic.js. -/
def MAX_RETRIES : Nat := 3

/-- The backoff base hardwired in `withRetry`: `Math.pow(2, attempts) * 1000`
uses 1000 ms as the base delay. -/
def baseDelayMs : Nat := 1000

/-- Result of a `withRetry` run: the returned value (`Except.ok none` models the
`undefined` that the JS function returns when the loop body never runs, i.e.
`maxRetries = 0`; a thrown error is `Except.error`), the list of backoff delays
awaited (in ms, in order), and the number of times the operation was invoked. -/
structure RetryResult (ε α : Type) where
  result : Except ε (Option α)
  delays : List Nat
  invocations : Nat

/-- Embedding of the loop body of `withRetry` from sonic.js:
`attempts` counts the failures so far (the JS local of the same name);
the loop runs while `attempts < maxRetries`, invokes the operation
(invocation number `attempts + 1`), and on failure increments `attempts`,
rethrows when `attempts >= maxRetries`, and otherwise awaits
`Math.pow(2, attempts) * 1000` milliseconds before retrying. -/
def withRetryGo (op : Nat → Except ε α) (maxRetries : Nat) (attempts : Nat) :
    RetryResult ε α :=
  if h : attempts < maxRetries then
    match op (attempts + 1) with
    | .ok a => ⟨.ok (some a), [], 1⟩
    | .error e =>
      if h2 : attempts + 1 ≥ maxRetries then ⟨.error e, [], 1⟩
      else
        let d := 2 ^ (attempts + 1) * baseDelayMs
        let rest := withRetryGo op maxRetries (attempts + 1)
        ⟨rest.result, d :: rest.delays, rest.invocations + 1⟩
  else ⟨.ok none, [], 0⟩
  termination_by maxRetries - attempts
  decreasing_by omega

/-- Embedding of `withRetry(operation, maxRetries)` from sonic.js (lines
121-135): starts the loop with `attempts = 0`. -/
def withRetry (op : Nat → Except ε α) (maxRetries : Nat) : RetryResult ε α :=
  withRetryGo op maxRetries 0

lemma withRetryGo_succeed (op : Nat → Except ε α) (m : Nat) (e : Nat → ε) (v : α)
    (hfail : ∀ k, 1 ≤ k → k < m → op k = .error (e k)) (hsucc : op m = .ok v) :
    ∀ n a, m - a = n → a < m →
      withRetryGo op m a =
        ⟨.ok (some v),
         (List.range (m - 1 - a)).map (fun j => 2 ^ (a + 1 + j) * baseDelayMs),
         m - a⟩ := by
  intro n
  induction n with
  | zero => intro a hn ha; omega
  | succ n ih =>
    intro a hn ha
    rw [withRetryGo]
    rw [dif_pos ha]
    by_cases hlast : a + 1 = m
    · rw [hlast, hsucc]
      have h1 : m - 1 - a = 0 := by omega
      have h2 : m - a = 1 := by omega
      simp [h1, h2]
    · have hfa : op (a + 1) = .error (e (a + 1)) := hfail (a + 1) (by omega) (by omega)
      rw [hfa]
      have hge : ¬ (a + 1 ≥ m) := by omega
      dsimp only
      rw [dif_neg hge]
      have hrec := ih (a + 1) (by omega) (by omega)
      rw [hrec]
      have hlen : m - 1 - a = (m - 1 - (a + 1)) + 1 := by omega
      dsimp only
      rw [RetryResult.mk.injEq]
      refine ⟨rfl, ?_, by omega⟩
      rw [hlen, List.range_succ_eq_map, List.map_cons, List.map_map]
      simp only [Function.comp_apply, Nat.add_zero]
      rw [List.cons_eq_cons]
      refine ⟨rfl, ?_⟩
      apply List.map_congr_left
      intro j _
      simp only [Function.comp_apply]
      have hj : a + 1 + 1 + j = a + 1 + Nat.succ j := by omega
      rw [hj]

lemma withRetryGo_all_fail (op : Nat → Except ε α) (m : Nat) (e : Nat → ε)
    (hfail : ∀ k, 1 ≤ k → op k = .error (e k)) :
    ∀ n a, m - a = n → a < m →
      withRetryGo op m a =
        ⟨.error (e m),
         (List.range (m - 1 - a)).map (fun j => 2 ^ (a + 1 + j) * baseDelayMs),
         m - a⟩ := by
  intro n
  induction n with
  | zero => intro a hn ha; omega
  | succ n ih =>
    intro a hn ha
    rw [withRetryGo]
    rw [dif_pos ha]
    have hfa : op (a + 1) = .error (e (a + 1)) := hfail (a + 1) (by omega)
    rw [hfa]
    dsimp only
    by_cases hlast : a + 1 ≥ m
    · rw [dif_pos hlast]
      have hm : a + 1 = m := by omega
      have h1 : m - 1 - a = 0 := by omega
      have h2 : m - a = 1 := by omega
      simp [h1, h2, hm]
    · rw [dif_neg hlast]
      have hrec := ih (a + 1) (by omega) (by omega)
      rw [hrec]
      have hlen : m - 1 - a = (m - 1 - (a + 1)) + 1 := by omega
      dsimp only
      rw [RetryResult.mk.injEq]
      refine ⟨rfl, ?_, by omega⟩
      rw [hlen, List.range_succ_eq_map, List.map_cons, List.map_map]
      simp only [Function.comp_apply, Nat.add_zero]
      rw [List.cons_eq_cons]
      refine ⟨rfl, ?_⟩
      apply List.map_congr_left
      intro j _
      simp only [Function.comp_apply]
      have hj : a + 1 + 1 + j = a + 1 + Nat.succ j := by omega
      rw [hj]

/-- C1: for every retry policy with `maxAttempts = m` (the `maxRetries`
argument of `withRetry`; the backoff base is the hardwired
`baseDelayMs = 1000`), an operation that fails on its first `m - 1`
invocations and succeeds on invocation `m` makes `withRetry` return the
success value, and the wait after failed attempt `k` (1-indexed, `k < m`,
here the list entry at 0-based index `k - 1`) is exactly
`baseDelayMs * 2 ^ k` milliseconds, i.e. the delay sequence is
`baseDelayMs*2, baseDelayMs*4, ..., baseDelayMs*2^(m-1)`. -/
theorem withRetry_fail_then_succeed (m : Nat) (op : Nat → Except ε α)
    (e : Nat → ε) (v : α) (hm : 1 ≤ m)
    (hfail : ∀ k, 1 ≤ k → k < m → op k = .error (e k))
    (hsucc : op m = .ok v) :
    (withRetry op m).result = .ok (some v) ∧
    (withRetry op m).delays =
      (List.range (m - 1)).map (fun j => baseDelayMs * 2 ^ (j + 1)) := by
  have h := withRetryGo_succeed op m e v hfail hsucc (m - 0) 0 rfl (by omega)
  rw [withRetry, h]
  refine ⟨rfl, ?_⟩
  simp only [Nat.sub_zero]
  apply List.map_congr_left
  intro j _
  have hj : 0 + 1 + j = j + 1 := by omega
  rw [hj, mul_comm]

/-- Witness for C1 at `m = 3` with an operation failing on invocations 1 and 2
and succeeding with 42 on invocation 3: the delays are 2000 ms and 4000 ms. -/
theorem withRetry_fail_then_succeed_witness :
    1 ≤ 3 ∧
    ((withRetry (fun k => if k = 3 then Except.ok 42 else Except.error "boom")
        3).result = Except.ok (some 42) ∧
     (withRetry (fun k => if k = 3 then Except.ok 42 else Except.error "boom")
        3).delays = [2000, 4000]) := by
  refine ⟨by decide, ?_⟩
  have h := withRetry_fail_then_succeed 3
      (fun k => if k = 3 then Except.ok 42 else Except.error "boom")
      (fun _ => "boom") 42 (by decide)
      (by intro k h1 h2; interval_cases k <;> rfl) (by rfl)
  refine ⟨h.1, ?_⟩
  rw [h.2]
  rfl

/-- C2: for every retry policy with `maxAttempts = m` (the `maxRetries`
argument of `withRetry`), an operation that fails on every invocation is
invoked exactly `m` times, and `withRetry` then rethrows the error of the
`m`-th (last) attempt to the caller unchanged, with no wrapping. -/
theorem withRetry_always_fail (m : Nat) (op : Nat → Except ε α)
    (e : Nat → ε) (hm : 1 ≤ m)
    (hfail : ∀ k, 1 ≤ k → op k = .error (e k)) :
    (withRetry op m).invocations = m ∧
    (withRetry op m).result = .error (e m) := by
  have h := withRetryGo_all_fail op m e hfail (m - 0) 0 rfl (by omega)
  rw [withRetry, h]
  exact ⟨rfl, rfl⟩

/-- Witness for C2 at `m = 2` with an operation whose first invocation fails
with "first" and whose second fails with "second": the operation is invoked
twice and the surfaced error is "second". -/
theorem withRetry_always_fail_witness :
    1 ≤ 2 ∧
    ((withRetry
        (fun k => (Except.error (if k = 2 then "second" else "first") :
          Except String Nat)) 2).invocations = 2 ∧
     (withRetry
        (fun k => (Except.error (if k = 2 then "second" else "first") :
          Except String Nat)) 2).result = Except.error "second") := by
  refine ⟨by decide, ?_⟩
  have h := withRetry_always_fail 2
      (fun k => (Except.error (if k = 2 then "second" else "first") :
        Except String Nat))
      (fun k => if k = 2 then "second" else "first") (by decide)
      (fun k _ => rfl)
  refine ⟨h.1, ?_⟩
  rw [h.2]
  rfl

/-- Outcome of one cycle of `main`'s loop: `Success` when both the stake and
the unstake step returned, `Failed error.message` when either threw (the
catch block at the bottom of the loop body). -/
inductive CycleOutcome : Type
  | success : CycleOutcome
  | failed : String → CycleOutcome
  deriving DecidableEq

/-- Observable events of one run of `main`'s cycle loop, in program order:
invoking `supplyWS i` (stakeCall), awaiting the intra-cycle delay before the
withdraw (intraWait), invoking `withdrawWS i` (unstakeCall), and awaiting the
inter-cycle delay after cycle `i` (interWait). Delays carry the sampled
milliseconds. -/
inductive Event : Type
  | stakeCall : Nat → Event
  | intraWait : Nat → Nat → Event
  | unstakeCall : Nat → Event
  | interWait : Nat → Nat → Event
  deriving DecidableEq

/-- Cycle number an event belongs to. -/
def eventCycle : Event → Nat
  | .stakeCall i => i
  | .intraWait i _ => i
  | .unstakeCall i => i
  | .interWait i _ => i

/-- Position of an event inside its cycle, in the program order of `main`'s
loop body: stake, intra-cycle wait, unstake, inter-cycle wait. -/
def eventRank : Event → Nat
  | .stakeCall _ => 0
  | .intraWait _ _ => 1
  | .unstakeCall _ => 2
  | .interWait _ _ => 3

/-- Cycle-major order key: events of cycle `i` all key below events of cycle
`i + 1`, and within a cycle stake < intraWait < unstake < interWait. -/
def eventKey (ev : Event) : Nat := 4 * eventCycle ev + eventRank ev

/-- Outcome the loop body records for cycle `i`, read off from the `try`/
`catch` of `main` (sonic.js lines 229-241): `Failed` with the stake error if
`supplyWS` threw, otherwise `Failed` with the unstake error if `withdrawWS`
threw, otherwise `Success`. -/
def cycleOutcome (stake unstake : Nat → Except String Unit) (i : Nat) :
    CycleOutcome :=
  match stake i with
  | .error msg => .failed msg
  | .ok _ =>
    match unstake i with
    | .error msg => .failed msg
    | .ok _ => .success

/-- Events of the `try` block of cycle `i`: `supplyWS(i)` is always invoked;
only when it returns does the loop await one `getRandomDelay()` sample (read
at index `dIdx` of `delaySeq`) and then invoke `withdrawWS(i)`; a stake
failure jumps to the catch, so neither the wait nor the unstake happens. -/
def cycleEvents (stake : Nat → Except String Unit) (delaySeq : Nat → Nat)
    (i dIdx : Nat) : List Event :=
  match stake i with
  | .error _ => [.stakeCall i]
  | .ok _ => [.stakeCall i, .intraWait i (delaySeq dIdx), .unstakeCall i]

/-- Number of `getRandomDelay()` samples the `try` block of cycle `i`
consumes: one (for the intra-cycle wait) when the stake succeeded, none when
it threw. -/
def dIdxAfter (stake : Nat → Except String Unit) (i dIdx : Nat) : Nat :=
  match stake i with
  | .error _ => dIdx
  | .ok _ => dIdx + 1

/-- Embedding of the body of `main`'s for-loop (sonic.js lines 228-248).
`stake i` / `unstake i` are the results of `supplyWS(i)` / `withdrawWS(i)`
(already wrapped in `withRetry`, so an `Except.error` is a retry-exhausted
failure); `delaySeq` enumerates the successive values returned by
`getRandomDelay()`, consumed via the counter `dIdx`. Each iteration runs the
try/catch (`cycleOutcome`, `cycleEvents`, `dIdxAfter`) and then, outside the
try/catch, if `i < cycleCount`, samples and awaits a second delay before the
next iteration. Returns the outcome list and the event trace. -/
def runCyclesGo (stake unstake : Nat → Except String Unit) (delaySeq : Nat → Nat)
    (cycleCount : Nat) (i dIdx : Nat) : List CycleOutcome × List Event :=
  if h : i ≤ cycleCount then
    let outcome := cycleOutcome stake unstake i
    let evs := cycleEvents stake delaySeq i dIdx
    let dIdx1 := dIdxAfter stake i dIdx
    if i < cycleCount then
      let rest := runCyclesGo stake unstake delaySeq cycleCount (i + 1) (dIdx1 + 1)
      (outcome :: rest.1, evs ++ Event.interWait i (delaySeq dIdx1) :: rest.2)
    else ([outcome], evs)
  else ([], [])
  termination_by cycleCount + 1 - i
  decreasing_by omega

/-- Embedding of `main`'s cycle loop `for (let i = 1; i <= cycleCount; i++)`:
`cycleCount` is an `Int` because `parseInt` can produce a negative number;
the loop runs `max cycleCount 0` iterations starting at `i = 1`. -/
def runScheduler (stake unstake : Nat → Except String Unit) (delaySeq : Nat → Nat)
    (cycleCount : Int) : List CycleOutcome × List Event :=
  runCyclesGo stake unstake delaySeq cycleCount.toNat 1 0

/-- Composition used by `main`: a per-cycle operation run through `withRetry`
with `MAX_RETRIES`; the scheduler sees only the final result (retry-exhausted
error, or success). `opFor i k` is the result of invocation `k` of the
operation for cycle `i`. -/
def throughRetry (opFor : Nat → Nat → Except String Unit) (i : Nat) :
    Except String Unit :=
  match (withRetry (opFor i) MAX_RETRIES).result with
  | .ok _ => .ok ()
  | .error e => .error e

lemma runCyclesGo_outcomes (stake unstake : Nat → Except String Unit)
    (delaySeq : Nat → Nat) (cycleCount : Nat) :
    ∀ n i, cycleCount + 1 - i = n → ∀ dIdx,
      (runCyclesGo stake unstake delaySeq cycleCount i dIdx).1 =
        (List.range' i (cycleCount + 1 - i)).map (cycleOutcome stake unstake) := by
  intro n
  induction n with
  | zero =>
    intro i hn dIdx
    have hi : ¬ i ≤ cycleCount := by omega
    rw [runCyclesGo, dif_neg hi]
    have h0 : cycleCount + 1 - i = 0 := by omega
    rw [h0]
    rfl
  | succ n ih =>
    intro i hn dIdx
    by_cases hi : i ≤ cycleCount
    · rw [runCyclesGo, dif_pos hi]
      have hr : cycleCount + 1 - i = (cycleCount + 1 - (i + 1)) + 1 := by omega
      rw [hr, List.range'_succ, List.map_cons]
      by_cases hlt : i < cycleCount
      · simp only [if_pos hlt]
        have hrec := ih (i + 1) (by omega)
        rw [List.cons_eq_cons]
        exact ⟨rfl, by rw [hrec]⟩
      · simp only [if_neg hlt]
        have h0 : cycleCount + 1 - (i + 1) = 0 := by omega
        rw [h0]
        rfl
    · rw [runCyclesGo, dif_neg hi]
      have h0 : cycleCount + 1 - i = 0 := by omega
      rw [h0]
      rfl

/-- C3: the outcome list of `main`'s loop is exactly one `cycleOutcome` per
cycle `1..totalCycles`, whatever the per-cycle results are — so a cycle whose
stake (or whose unstake, after a successful stake) throws a retry-exhausted
error is recorded as `Failed` with that error's message, and every other
cycle still runs and is recorded independently; in particular, for
`totalCycles = 3` with cycle 2's stake operation failing on every retry
attempt, the outcome sequence is `[Success, Failed "stake failure",
Success]`. -/
theorem scheduler_isolates_failures :
    (∀ (stake unstake : Nat → Except String Unit) (delaySeq : Nat → Nat)
        (c : Int),
      (runScheduler stake unstake delaySeq c).1 =
        (List.range' 1 c.toNat).map (cycleOutcome stake unstake)) ∧
    (∀ (stake unstake : Nat → Except String Unit) (i : Nat) (msg : String),
      stake i = Except.error msg →
      cycleOutcome stake unstake i = CycleOutcome.failed msg) ∧
    (∀ (stake unstake : Nat → Except String Unit) (i : Nat) (msg : String),
      stake i = Except.ok () → unstake i = Except.error msg →
      cycleOutcome stake unstake i = CycleOutcome.failed msg) ∧
    (∀ delaySeq : Nat → Nat,
      (runScheduler
        (throughRetry
          (fun i _k => if i = 2 then Except.error "stake failure" else Except.ok ()))
        (fun _ => Except.ok ()) delaySeq 3).1 =
      [CycleOutcome.success, CycleOutcome.failed "stake failure",
       CycleOutcome.success]) := by
  refine ⟨?_, ?_, ?_, ?_⟩
  · intro stake unstake delaySeq c
    have h := runCyclesGo_outcomes stake unstake delaySeq c.toNat
        (c.toNat + 1 - 1) 1 rfl 0
    rw [runScheduler, h]
    have h1 : c.toNat + 1 - 1 = c.toNat := by omega
    rw [h1]
  · intro stake unstake i msg hst
    unfold cycleOutcome
    rw [hst]
  · intro stake unstake i msg hst hun
    unfold cycleOutcome
    rw [hst, hun]
  · intro delaySeq
    have h := runCyclesGo_outcomes
        (throughRetry
          (fun i _k => if i = 2 then Except.error "stake failure" else Except.ok ()))
        (fun _ => Except.ok ()) delaySeq 3 3 1 rfl 0
    have h3 : (3:Int).toNat = 3 := rfl
    rw [runScheduler, h3, h]
    simp [List.range', cycleOutcome, throughRetry, withRetry, withRetryGo,
      MAX_RETRIES]

/-- Witness for C3 at the concrete plan of the claim: three cycles, cycle 2's
stake failing on every retry attempt, constant delay sampler. -/
theorem scheduler_isolates_failures_witness :
    (runScheduler
      (throughRetry
        (fun i _k => if i = 2 then Except.error "stake failure" else Except.ok ()))
      (fun _ => Except.ok ()) (fun _ => 0) 3).1 =
    [CycleOutcome.success, CycleOutcome.failed "stake failure",
     CycleOutcome.success] :=
  scheduler_isolates_failures.2.2.2 (fun _ => 0)

lemma cycleEvents_key_le (stake : Nat → Except String Unit) (ds : Nat → Nat)
    (i dIdx : Nat) :
    ∀ ev ∈ cycleEvents stake ds i dIdx,
      4 * i ≤ eventKey ev ∧ eventKey ev ≤ 4 * i + 2 := by
  intro ev hev
  cases hst : stake i with
  | error msg =>
    simp [cycleEvents, hst] at hev
    subst hev
    simp [eventKey, eventCycle, eventRank]
  | ok u =>
    simp [cycleEvents, hst] at hev
    rcases hev with h | h | h <;> subst h <;>
      simp [eventKey, eventCycle, eventRank] <;> omega

lemma cycleEvents_sorted (stake : Nat → Except String Unit) (ds : Nat → Nat)
    (i dIdx : Nat) :
    List.Pairwise (fun a b => eventKey a < eventKey b)
      (cycleEvents stake ds i dIdx) := by
  cases hst : stake i with
  | error msg => simp [cycleEvents, hst]
  | ok u =>
    simp [cycleEvents, hst, List.pairwise_cons, eventKey, eventCycle, eventRank]

lemma cycleEvents_no_interWait (stake : Nat → Except String Unit)
    (ds : Nat → Nat) (i dIdx j w : Nat) :
    Event.interWait j w ∉ cycleEvents stake ds i dIdx := by
  cases hst : stake i with
  | error msg => simp [cycleEvents, hst]
  | ok u => simp [cycleEvents, hst]

lemma eventRank_le (ev : Event) : eventRank ev ≤ 3 := by
  cases ev <;> simp [eventRank]

lemma runCyclesGo_sorted (stake unstake : Nat → Except String Unit)
    (ds : Nat → Nat) (m : Nat) :
    ∀ n i, m + 1 - i = n → ∀ dIdx,
      List.Pairwise (fun a b => eventKey a < eventKey b)
        (runCyclesGo stake unstake ds m i dIdx).2 ∧
      ∀ ev ∈ (runCyclesGo stake unstake ds m i dIdx).2, 4 * i ≤ eventKey ev := by
  intro n
  induction n with
  | zero =>
    intro i hn dIdx
    have hi : ¬ i ≤ m := by omega
    rw [runCyclesGo, dif_neg hi]
    exact ⟨List.Pairwise.nil, by intro ev hev; simp at hev⟩
  | succ n ih =>
    intro i hn dIdx
    by_cases hi : i ≤ m
    · rw [runCyclesGo, dif_pos hi]
      by_cases hlt : i < m
      · simp only [if_pos hlt]
        have hrec := ih (i + 1) (by omega) (dIdxAfter stake i dIdx + 1)
        constructor
        · rw [List.pairwise_append]
          refine ⟨cycleEvents_sorted stake ds i dIdx, ?_, ?_⟩
          · rw [List.pairwise_cons]
            refine ⟨?_, hrec.1⟩
            intro b hb
            have hkb := hrec.2 b hb
            have hkI : eventKey (Event.interWait i (ds (dIdxAfter stake i dIdx))) =
                4 * i + 3 := rfl
            omega
          · intro a ha b hb
            have hka := cycleEvents_key_le stake ds i dIdx a ha
            rcases List.mem_cons.mp hb with hb1 | hb2
            · subst hb1
              have hkI : eventKey (Event.interWait i (ds (dIdxAfter stake i dIdx))) =
                  4 * i + 3 := rfl
              omega
            · have hkb := hrec.2 b hb2
              omega
        · intro ev hev
          rcases List.mem_append.mp hev with h1 | h2
          · exact (cycleEvents_key_le stake ds i dIdx ev h1).1
          · rcases List.mem_cons.mp h2 with h3 | h4
            · subst h3
              have hkI : eventKey (Event.interWait i (ds (dIdxAfter stake i dIdx))) =
                  4 * i + 3 := rfl
              omega
            · have := hrec.2 ev h4
              omega
      · simp only [if_neg hlt]
        exact ⟨cycleEvents_sorted stake ds i dIdx,
          fun ev hev => (cycleEvents_key_le stake ds i dIdx ev hev).1⟩
    · omega

lemma runCyclesGo_interWait (stake unstake : Nat → Except String Unit)
    (ds : Nat → Nat) (m : Nat) :
    ∀ n i, m + 1 - i = n → ∀ dIdx j,
      (∃ w, Event.interWait j w ∈ (runCyclesGo stake unstake ds m i dIdx).2) ↔
        (i ≤ j ∧ j < m) := by
  intro n
  induction n with
  | zero =>
    intro i hn dIdx j
    have hi : ¬ i ≤ m := by omega
    rw [runCyclesGo, dif_neg hi]
    simp
    omega
  | succ n ih =>
    intro i hn dIdx j
    by_cases hi : i ≤ m
    · rw [runCyclesGo, dif_pos hi]
      by_cases hlt : i < m
      · simp only [if_pos hlt]
        constructor
        · rintro ⟨w, hw⟩
          rcases List.mem_append.mp hw with h1 | h2
          · exact absurd h1 (cycleEvents_no_interWait stake ds i dIdx j w)
          · rcases List.mem_cons.mp h2 with h3 | h4
            · injection h3 with h5 h6
              omega
            · have hrest := (ih (i + 1) (by omega)
                  (dIdxAfter stake i dIdx + 1) j).mp ⟨w, h4⟩
              omega
        · rintro ⟨hij, hjm⟩
          by_cases hji : j = i
          · refine ⟨ds (dIdxAfter stake i dIdx), List.mem_append.mpr (Or.inr ?_)⟩
            rw [hji]
            exact List.mem_cons_self _ _
          · obtain ⟨w, hw⟩ := (ih (i + 1) (by omega)
                (dIdxAfter stake i dIdx + 1) j).mpr ⟨by omega, hjm⟩
            exact ⟨w, List.mem_append.mpr (Or.inr (List.mem_cons.mpr (Or.inr hw)))⟩
      · simp only [if_neg hlt]
        constructor
        · rintro ⟨w, hw⟩
          exact absurd hw (cycleEvents_no_interWait stake ds i dIdx j w)
        · rintro ⟨hij, hjm⟩
          omega
    · omega

/-- C6: in every run of `main`'s loop, (1) the `supplyWS` call of cycle `i`
strictly precedes the `withdrawWS` call of cycle `i` in the event trace,
(2) every event of an earlier cycle strictly precedes every event of a later
cycle, and (3) an inter-cycle delay is sampled and awaited after cycle `i`
exactly when `1 ≤ i < totalCycles` — no inter-cycle wait after the final
cycle. -/
theorem scheduler_event_order (stake unstake : Nat → Except String Unit)
    (ds : Nat → Nat) (c : Int) :
    (∀ (i : Nat) (p q : Fin ((runScheduler stake unstake ds c).2).length),
      ((runScheduler stake unstake ds c).2).get p = Event.stakeCall i →
      ((runScheduler stake unstake ds c).2).get q = Event.unstakeCall i →
      p < q) ∧
    (∀ p q : Fin ((runScheduler stake unstake ds c).2).length,
      eventCycle (((runScheduler stake unstake ds c).2).get p) <
        eventCycle (((runScheduler stake unstake ds c).2).get q) →
      p < q) ∧
    (∀ i : Nat,
      (∃ w, Event.interWait i w ∈ (runScheduler stake unstake ds c).2) ↔
        (1 ≤ i ∧ i < c.toNat)) := by
  have hsorted : List.Pairwise (fun a b => eventKey a < eventKey b)
      (runScheduler stake unstake ds c).2 :=
    (runCyclesGo_sorted stake unstake ds c.toNat (c.toNat + 1 - 1) 1 rfl 0).1
  have hget := List.pairwise_iff_get.mp hsorted
  refine ⟨?_, ?_, ?_⟩
  · intro i p q hp hq
    rcases lt_trichotomy p q with h | h | h
    · exact h
    · exfalso
      rw [h, hq] at hp
      exact Event.noConfusion hp
    · exfalso
      have := hget q p h
      rw [hp, hq] at this
      simp only [eventKey, eventCycle, eventRank] at this
      omega
  · intro p q hcyc
    rcases lt_trichotomy p q with h | h | h
    · exact h
    · exfalso
      rw [h] at hcyc
      exact lt_irrefl _ hcyc
    · exfalso
      have hk := hget q p h
      have hrp := eventRank_le (((runScheduler stake unstake ds c).2).get p)
      have hrq := eventRank_le (((runScheduler stake unstake ds c).2).get q)
      simp only [eventKey] at hk
      omega
  · intro i
    have h := runCyclesGo_interWait stake unstake ds c.toNat
        (c.toNat + 1 - 1) 1 rfl 0 i
    rw [runScheduler]
    rw [h]

/-- Witness for C6: a two-cycle run with always-succeeding actions and a
constant delay sampler contains an inter-cycle wait after cycle 1. -/
theorem scheduler_event_order_witness :
    ∃ w, Event.interWait 1 w ∈
      (runScheduler (fun _ => Except.ok ()) (fun _ => Except.ok ())
        (fun _ => 5) 2).2 :=
  ((scheduler_event_order (fun _ => Except.ok ()) (fun _ => Except.ok ())
    (fun _ => 5) 2).2.2 1).mpr (by decide)

/-- Embedding of the cycle-count prompt of `main` (sonic.js lines 222-226):
`parseInt(answer) || 1`. `none` models `parseInt` returning `NaN` (empty or
non-numeric input); a numeric answer parses to any integer, including zero
or a negative number. `NaN` and `0` are both falsy in JavaScript, so `|| 1`
replaces them with 1; every other integer passes through. -/
def cycleCountOfAnswer : Option Int → Int
  | none => 1
  | some n => if n = 0 then 1 else n

/-- C5: the cycle-count prompt yields the entered positive integer unchanged
and defaults to 1 on invalid or empty input (and on the falsy 0); and the
scheduler loop given `totalCycles ≤ 0` runs no iteration: it produces an
empty outcome sequence and an empty event trace, so no stake or unstake
action is invoked. -/
theorem prompt_default_and_empty_schedule :
    (cycleCountOfAnswer none = 1) ∧
    (cycleCountOfAnswer (some 0) = 1) ∧
    (∀ n : Int, n ≠ 0 → cycleCountOfAnswer (some n) = n) ∧
    (∀ (stake unstake : Nat → Except String Unit) (ds : Nat → Nat) (c : Int),
      c ≤ 0 → runScheduler stake unstake ds c = ([], [])) := by
  refine ⟨rfl, rfl, ?_, ?_⟩
  · intro n hn
    simp [cycleCountOfAnswer, hn]
  · intro stake unstake ds c hc
    rw [runScheduler, runCyclesGo]
    have h1 : ¬ (1 ≤ c.toNat) := by omega
    rw [dif_neg h1]

/-- Witness for C5 at `totalCycles = -2`: the scheduler records nothing and
invokes nothing. -/
theorem prompt_default_and_empty_schedule_witness :
    ((-2 : Int) ≤ 0) ∧
    runScheduler (fun _ => Except.ok ()) (fun _ => Except.ok ())
      (fun _ => 0) (-2) = ([], []) :=
  ⟨by decide,
   prompt_default_and_empty_schedule.2.2.2 (fun _ => Except.ok ())
     (fun _ => Except.ok ()) (fun _ => 0) (-2) (by decide)⟩

/-- Constant `minDelay = 1 * 60 * 1000` of `getRandomDelay`. -/
def minDelayMs : Nat := 1 * 60 * 1000

/-- Constant `maxDelay = 3 * 60 * 1000` of `getRandomDelay`. -/
def maxDelayMs : Nat := 3 * 60 * 1000

/-- Embedding of `getRandomDelay` (sonic.js lines 60-64):
`Math.floor(Math.random() * (maxDelay - minDelay + 1) + minDelay)`, with
`Math.random()` modelled as a rational `r ∈ [0, 1)`. -/
def getRandomDelay (r : ℚ) : Int :=
  ⌊r * ((maxDelayMs : ℚ) - (minDelayMs : ℚ) + 1) + (minDelayMs : ℚ)⌋

/-- Counterexample to C4: the range configured in the code is 1 to 3 minutes,
i.e. `maxDelay = 180000` ms, not 120000 ms. At the valid random value
`r = 9/10` the sample is 168000 ms, outside `[60000, 120000]`. -/
theorem getRandomDelay_exceeds_claimed_range :
    (0 : ℚ) ≤ 9/10 ∧ (9/10 : ℚ) < 1 ∧
    getRandomDelay (9/10) = 168000 ∧ ¬ (getRandomDelay (9/10) ≤ 120000) := by
  have hval : getRandomDelay (9/10) = 168000 := by
    unfold getRandomDelay minDelayMs maxDelayMs
    rw [Int.floor_eq_iff]
    constructor <;> norm_num
  refine ⟨by norm_num, by norm_num, hval, ?_⟩
  rw [hval]
  decide

/-- C4 amended: every delay sampled by `getRandomDelay` is an integer in the
configured range `[60000, 180000]` (the code's `minDelay` is 1 minute and
`maxDelay` is 3 minutes), for every random value `r ∈ [0, 1)`. -/
theorem getRandomDelay_bounds (r : ℚ) (h0 : 0 ≤ r) (h1 : r < 1) :
    (minDelayMs : Int) ≤ getRandomDelay r ∧
    getRandomDelay r ≤ (maxDelayMs : Int) := by
  have hval : getRandomDelay r = ⌊r * 120001 + 60000⌋ := by
    unfold getRandomDelay minDelayMs maxDelayMs
    norm_num
  constructor
  · rw [hval]
    apply Int.le_floor.mpr
    have : ((minDelayMs : Int) : ℚ) = 60000 := by unfold minDelayMs; norm_num
    rw [this]
    nlinarith
  · rw [hval]
    have hlt : r * 120001 + 60000 < (((maxDelayMs : Int) + 1 : Int) : ℚ) := by
      have : (((maxDelayMs : Int) + 1 : Int) : ℚ) = 180001 := by
        unfold maxDelayMs; norm_num
      rw [this]
      nlinarith
    have := Int.floor_lt.mpr hlt
    omega

/-- Witness for the amended C4 at `r = 1/2`: the sample lands at 120000 ms,
inside `[60000, 180000]`. -/
theorem getRandomDelay_bounds_witness :
    (0 : ℚ) ≤ 1/2 ∧ (1/2 : ℚ) < 1 ∧
    ((minDelayMs : Int) ≤ getRandomDelay (1/2) ∧
     getRandomDelay (1/2) ≤ (maxDelayMs : Int)) :=
  ⟨by norm_num, by norm_num,
   getRandomDelay_bounds (1/2) (by norm_num) (by norm_num)⟩

/-- Constant `MIN_STAKE_AMOUNT = ethers.utils.parseEther("0.01")` (sonic.js
line 22), in wei: 1 ether = 10^18 wei. -/
def MIN_STAKE_AMOUNT : Int := 10 ^ 16

/-- Constant `MAX_STAKE_AMOUNT = ethers.utils.parseEther("0.05")` (sonic.js
line 23), in wei. -/
def MAX_STAKE_AMOUNT : Int := 5 * 10 ^ 16

/-- Embedding of `getRandomAmount` (sonic.js lines 53-58):
`min = parseFloat(formatEther(MIN_STAKE_AMOUNT))` is 0.01 ether and
`max = parseFloat(formatEther(MAX_STAKE_AMOUNT))` is 0.05 ether;
`randomAmount = Math.random() * (max - min) + min` with `Math.random()`
modelled as a rational `r ∈ [0, 1)` (exact rationals stand in for the
binary64 floats, whose rounding stays well inside the 4-decimal grid here);
`randomAmount.toFixed(4)` rounds to 4 decimal places, ties away from zero,
i.e. `⌊x * 10^4 + 1/2⌋` on this positive range; `parseEther` of the
resulting 4-decimal string is exact: a further factor 10^14 to wei. -/
def getRandomAmount (r : ℚ) : Int :=
  ⌊(r * (5/100 - 1/100) + 1/100) * 10 ^ 4 + 1/2⌋ * 10 ^ 14

/-- C9: every stake amount produced by `getRandomAmount` lies between
`parseEther("0.01")` and `parseEther("0.05")` wei inclusive, for every value
of the random source. -/
theorem getRandomAmount_in_range (r : ℚ) (h0 : 0 ≤ r) (h1 : r < 1) :
    MIN_STAKE_AMOUNT ≤ getRandomAmount r ∧
    getRandomAmount r ≤ MAX_STAKE_AMOUNT := by
  have hlow : (100 : Int) ≤ ⌊(r * (5/100 - 1/100) + 1/100) * 10 ^ 4 + 1/2⌋ := by
    apply Int.le_floor.mpr
    push_cast
    nlinarith
  have hhigh : ⌊(r * (5/100 - 1/100) + 1/100) * 10 ^ 4 + 1/2⌋ < 501 := by
    apply Int.floor_lt.mpr
    push_cast
    nlinarith
  unfold getRandomAmount MIN_STAKE_AMOUNT MAX_STAKE_AMOUNT
  constructor <;> nlinarith [hlow, hhigh]

/-- Witness for C9 at `r = 0`: the sampled amount is exactly
`parseEther("0.01")` wei. -/
theorem getRandomAmount_in_range_witness :
    (0 : ℚ) ≤ 0 ∧ (0 : ℚ) < 1 ∧
    (MIN_STAKE_AMOUNT ≤ getRandomAmount 0 ∧
     getRandomAmount 0 ≤ MAX_STAKE_AMOUNT) :=
  ⟨le_refl 0, by norm_num, getRandomAmount_in_range 0 (le_refl 0) (by norm_num)⟩

/-- On-chain transactions `supplyWS` can submit, in the order the code can
submit them: the `approve` of `checkApproval` and the lending-pool `deposit`
of the given amount. -/
inductive TxAction : Type
  | approve : TxAction
  | deposit : Int → TxAction
  deriving DecidableEq

/-- Wallet state one stake attempt reads: the wS token balance
(`wsToken.balanceOf`), the native balance (`provider.getBalance`) and the
lending pool's current allowance (`wsToken.allowance`), all in wei. -/
structure ChainState where
  wsBalance : Int
  ethBalance : Int
  allowance : Int

/-- Constant `ethers.utils.parseEther("1")`: the allowance threshold of
`checkApproval`. -/
def oneEther : Int := 10 ^ 18

/-- Constant `ethers.utils.parseEther("0.01")`: the minimum native balance
that `supplyWS` requires for gas. -/
def minEthForGas : Int := 10 ^ 16

/-- Embedding of one attempt of `supplyWS` (sonic.js lines 140-183), the
external calls that can succeed modelled as succeeding (the claim concerns
the balance-guard path): `checkApproval` first sends an approve transaction
when the allowance is below 1 ether; `checkBalances` reads the balances;
then the attempt throws "Insufficient wS balance" when the wS balance is
below the sampled stake amount, throws "Insufficient ETH for gas" when the
native balance is below 0.01 ether, and only otherwise submits the deposit
transaction. Returns the attempt result and the submitted transactions in
order. -/
def supplyAttempt (st : ChainState) (stakeAmount : Int) :
    Except String Unit × List TxAction :=
  let approvals := if st.allowance < oneEther then [TxAction.approve] else []
  if st.wsBalance < stakeAmount then
    (.error "Insufficient wS balance", approvals)
  else if st.ethBalance < minEthForGas then
    (.error "Insufficient ETH for gas", approvals)
  else (.ok (), approvals ++ [TxAction.deposit stakeAmount])

/-- Counterexample to C10's "before any transaction is sent": with allowance
0 and wS balance 0, the attempt does fail with "Insufficient wS balance",
but an approve transaction has already been sent, because `checkApproval`
runs before the balance checks. -/
theorem supplyAttempt_sends_approve_before_failing :
    (supplyAttempt ⟨0, oneEther, 0⟩ MIN_STAKE_AMOUNT).1 =
      Except.error "Insufficient wS balance" ∧
    (supplyAttempt ⟨0, oneEther, 0⟩ MIN_STAKE_AMOUNT).2 = [TxAction.approve] ∧
    (supplyAttempt ⟨0, oneEther, 0⟩ MIN_STAKE_AMOUNT).2 ≠ [] :=
  ⟨rfl, rfl, by decide⟩

/-- C10 amended: within every stake attempt, the deposit call is never
submitted when the wS balance is below the sampled stake amount or the
native balance is below 0.01 ether; in those states the attempt fails with
"Insufficient wS balance" or "Insufficient ETH for gas" before the deposit
transaction is sent — though `checkApproval` may already have sent an
approve transaction, since it runs before the balance checks. -/
theorem supplyAttempt_no_deposit_when_insufficient (st : ChainState)
    (amt : Int) (h : st.wsBalance < amt ∨ st.ethBalance < minEthForGas) :
    ((supplyAttempt st amt).1 = Except.error "Insufficient wS balance" ∨
     (supplyAttempt st amt).1 = Except.error "Insufficient ETH for gas") ∧
    ∀ a, TxAction.deposit a ∉ (supplyAttempt st amt).2 := by
  by_cases h1 : st.wsBalance < amt
  · constructor
    · left
      simp [supplyAttempt, h1]
    · intro a
      by_cases h2 : st.allowance < oneEther <;> simp [supplyAttempt, h1, h2]
  · have h2 : st.ethBalance < minEthForGas := by tauto
    constructor
    · right
      simp [supplyAttempt, h1, h2]
    · intro a
      by_cases h3 : st.allowance < oneEther <;> simp [supplyAttempt, h1, h2, h3]

/-- Witness for the amended C10: empty wS balance, ample native balance and
an already-granted allowance — the attempt fails with the wS error and the
transaction list contains no deposit. -/
theorem supplyAttempt_no_deposit_witness :
    ((0 : Int) < MIN_STAKE_AMOUNT ∨ (oneEther : Int) < minEthForGas) ∧
    (((supplyAttempt ⟨0, oneEther, oneEther⟩ MIN_STAKE_AMOUNT).1 =
        Except.error "Insufficient wS balance" ∨
      (supplyAttempt ⟨0, oneEther, oneEther⟩ MIN_STAKE_AMOUNT).1 =
        Except.error "Insufficient ETH for gas") ∧
     ∀ a, TxAction.deposit a ∉
        (supplyAttempt ⟨0, oneEther, oneEther⟩ MIN_STAKE_AMOUNT).2) :=
  ⟨Or.inl (by decide),
   supplyAttempt_no_deposit_when_insufficient ⟨0, oneEther, oneEther⟩
     MIN_STAKE_AMOUNT (Or.inl (by decide))⟩

/-- Termination paths of the process: `main`'s try body completing, `main`'s
catch receiving a fatal error, and the SIGINT handler running. -/
inductive TerminationPath : Type
  | normalCompletion : TerminationPath
  | fatalError : String → TerminationPath
  | interrupt : TerminationPath

/-- Exit code on each termination path, read off the source: `main`'s
`finally` block (sonic.js lines 253-256) runs `process.exit(0)` whether the
try body completed or the catch logged a fatal error, and the SIGINT handler
(lines 259-263) also calls `process.exit(0)`. -/
def exitCode : TerminationPath → Nat
  | .normalCompletion => 0
  | .fatalError _ => 0
  | .interrupt => 0

/-- C7: the process exits with code 0 on every termination path — normal
completion, fatal top-level error in `main`, and external interrupt. -/
theorem exitCode_always_zero : ∀ p : TerminationPath, exitCode p = 0 := by
  intro p
  cases p <;> rfl

/-- Steps a SIGINT handler may perform. `awaitInflight` stands for awaiting
any in-flight stake or unstake action so it can settle before the process
exits; it is in the model so that its absence from the actual handler is
expressible. -/
inductive HandlerStep : Type
  | logShutdown : HandlerStep
  | closeReadline : HandlerStep
  | awaitInflight : HandlerStep
  | processExit : Nat → HandlerStep
  deriving DecidableEq

/-- Embedding of the SIGINT handler (sonic.js lines 259-263): log
"Shutting down...", close the readline interface, `process.exit(0)` — run
synchronously in this order, nothing else. -/
def sigintHandlerSteps : List HandlerStep :=
  [.logShutdown, .closeReadline, .processExit 0]

/-- Whether a handler lets in-flight actions settle: true when an
await-in-flight step comes before the first `process.exit` (or no exit is
reached at all); false when the handler reaches `process.exit` without one,
which terminates the process immediately and drops pending operations. -/
def settlesBeforeExit : List HandlerStep → Bool
  | [] => true
  | .awaitInflight :: _ => true
  | .processExit _ :: _ => false
  | _ :: rest => settlesBeforeExit rest

/-- Counterexample to C8's settling guarantee: the SIGINT handler reaches
`process.exit(0)` with no await of in-flight actions before it, so an
in-flight stake or unstake is force-killed, not allowed to settle. -/
theorem sigintHandler_does_not_settle :
    settlesBeforeExit sigintHandlerSteps = false ∧
    HandlerStep.processExit 0 ∈ sigintHandlerSteps := by
  decide

/-- C8 amended: on SIGINT the handler terminates the process immediately —
no further wait or action is started and no further outcomes are recorded —
but any in-flight stake or unstake is force-killed by the synchronous
`process.exit(0)` rather than allowed to settle: the handler contains no
await-in-flight step and its last step is `process.exit(0)`. -/
theorem sigintHandler_exits_immediately :
    HandlerStep.awaitInflight ∉ sigintHandlerSteps ∧
    sigintHandlerSteps.getLast? = some (HandlerStep.processExit 0) := by
  decide

end Sonic
